import Mathlib

/-!
Verification of the squarified-treemap module
(`pheme/templatetags/charts/treemap.py`).

The Python module is embedded shallowly: real-valued quantities become
rationals (`ℚ`), Python lists become `List`, Python dictionaries become
association lists, and the recursive layout procedure is driven by an
explicit fuel argument equal to the input length (which the bound
lemmas below show is always sufficient, since every recursive call
strictly shortens the size list).  Renderer-level Python exceptions
(`ZeroDivisionError`, `IndexError`) are modelled with `Except`.
-/

namespace PhemeTreemap

/-- The `Rect` dataclass: x, y, dx (width), dy (height). -/
structure Rect where
  x : ℚ
  y : ℚ
  dx : ℚ
  dy : ℚ
deriving Repr, DecidableEq

/-- `__create_rectangle`: adds a spacing of 1px on every axis whose
extent exceeds 2. -/
def createRectangle (x y dx dy : ℚ) : Rect :=
  let p := if dx > 2 then (x + 1, dx - 2) else (x, dx)
  let q := if dy > 2 then (y + 1, dy - 2) else (y, dy)
  ⟨p.1, q.1, p.2, q.2⟩

/-- The padding step of `__create_rectangle` as a transform of an
already-built rectangle. -/
def padRect (r : Rect) : Rect :=
  createRectangle r.x r.y r.dx r.dy

/-- Area of a rectangle. -/
def rectArea (r : Rect) : ℚ := r.dx * r.dy

/-- The loop body of `__layoutrow`, generic in the rectangle builder
`mk` (the source uses `__create_rectangle`; the unpadded variant uses
`Rect.mk`).  `width` is the shared band width, `y` the running offset. -/
def layoutrowGo (mk : ℚ → ℚ → ℚ → ℚ → Rect) (width x : ℚ) : ℚ → List ℚ → List Rect
  | _, [] => []
  | y, size :: rest =>
    mk x y width (size / width) :: layoutrowGo mk width x (y + size / width) rest

/-- `__layoutrow`, generic in the rectangle builder. -/
def layoutrowWith (mk : ℚ → ℚ → ℚ → ℚ → Rect) (sizes : List ℚ) (x y _dx dy : ℚ) : List Rect :=
  layoutrowGo mk (sizes.sum / dy) x y sizes

/-- The loop body of `__layoutcol`: `height` is the shared band height,
`x` the running offset. -/
def layoutcolGo (mk : ℚ → ℚ → ℚ → ℚ → Rect) (height y : ℚ) : ℚ → List ℚ → List Rect
  | _, [] => []
  | x, size :: rest =>
    mk x y (size / height) height :: layoutcolGo mk height y (x + size / height) rest

/-- `__layoutcol`, generic in the rectangle builder. -/
def layoutcolWith (mk : ℚ → ℚ → ℚ → ℚ → Rect) (sizes : List ℚ) (x y dx _dy : ℚ) : List Rect :=
  layoutcolGo mk (sizes.sum / dx) y x sizes

/-- `__layout`, generic in the rectangle builder. -/
def layoutWith (mk : ℚ → ℚ → ℚ → ℚ → Rect) (sizes : List ℚ) (x y dx dy : ℚ) : List Rect :=
  if dx ≥ dy then layoutrowWith mk sizes x y dx dy
  else layoutcolWith mk sizes x y dx dy

/-- `__layout` exactly as in the source (padded rectangles). -/
def layout (sizes : List ℚ) (x y dx dy : ℚ) : List Rect :=
  layoutWith createRectangle sizes x y dx dy

/-- `__layout` with the padding of `__create_rectangle` stripped:
the raw band placement. -/
def layoutRaw (sizes : List ℚ) (x y dx dy : ℚ) : List Rect :=
  layoutWith Rect.mk sizes x y dx dy

/-- `__leftoverrow`. -/
def leftoverrow (sizes : List ℚ) (x y dx dy : ℚ) : ℚ × ℚ × ℚ × ℚ :=
  let width := sizes.sum / dy
  (x + width, y, dx - width, dy)

/-- `__leftovercol`. -/
def leftovercol (sizes : List ℚ) (x y dx dy : ℚ) : ℚ × ℚ × ℚ × ℚ :=
  let height := sizes.sum / dx
  (x, y + height, dx, dy - height)

/-- `__leftover`. -/
def leftover (sizes : List ℚ) (x y dx dy : ℚ) : ℚ × ℚ × ℚ × ℚ :=
  if dx ≥ dy then leftoverrow sizes x y dx dy
  else leftovercol sizes x y dx dy

/-- The per-rectangle quantity maximised in `__find_split.worst`:
`max(rect.dx / rect.dy, rect.dy / rect.dx)`. -/
def aspect (r : Rect) : ℚ := max (r.dx / r.dy) (r.dy / r.dx)

/-- Python `max` over a list; the source only ever applies it to
non-empty lists (Python `max([])` raises), so the `[]` value is
arbitrary. -/
def pyMax : List ℚ → ℚ
  | [] => 0
  | a :: rest => rest.foldl max a

/-- `worst(i)` from `__find_split`: the worst aspect ratio over the
(padded, as in the source) layout of the first `i` sizes. -/
def worst (sizes : List ℚ) (x y dx dy : ℚ) (i : Nat) : ℚ :=
  pyMax ((layout (sizes.take i) x y dx dy).map aspect)

/-- The loop of `__find_split`: `i` is the current candidate index,
the fuel counts the remaining iterations of `range(1, len(sizes))`;
when the loop ends without returning, the result is `len(sizes) - 1`. -/
def findSplitGo (sizes : List ℚ) (x y dx dy : ℚ) : Nat → Nat → Nat
  | _, 0 => sizes.length - 1
  | i, fuel + 1 =>
    if worst sizes x y dx dy i < worst sizes x y dx dy (i + 1) then i
    else findSplitGo sizes x y dx dy (i + 1) fuel

/-- `__find_split`. -/
def findSplit (sizes : List ℚ) (x y dx dy : ℚ) : Nat :=
  findSplitGo sizes x y dx dy 1 (sizes.length - 1)

/-- `__squarify`, generic in the rectangle builder and driven by fuel;
the fuel never runs out when it starts at the length of the size list,
because the split index is always at least 1. -/
def squarifyWith (mk : ℚ → ℚ → ℚ → ℚ → Rect) : Nat → List ℚ → ℚ → ℚ → ℚ → ℚ → List Rect
  | 0, _, _, _, _, _ => []
  | fuel + 1, sizes, x, y, dx, dy =>
    if sizes.length = 0 then []
    else
      let total_size := sizes.sum
      let total_area := dx * dy
      let sizes2 := sizes.map fun size => size * total_area / total_size
      if sizes2.length = 1 then
        layoutWith mk sizes2 x y dx dy
      else
        let i := findSplit sizes2 x y dx dy
        let current := sizes2.take i
        let remaining := sizes2.drop i
        let lo := leftover current x y dx dy
        layoutWith mk current x y dx dy ++
          squarifyWith mk fuel remaining lo.1 lo.2.1 lo.2.2.1 lo.2.2.2

/-- `__squarify` exactly as in the source: the returned rectangles have
already been padded by `__create_rectangle`. -/
def squarify (sizes : List ℚ) (x y dx dy : ℚ) : List Rect :=
  squarifyWith createRectangle sizes.length sizes x y dx dy

/-- `__squarify` with the padding stripped: the same recursion and the
same split decisions (the split search still measures padded
rectangles, as in the source), but the emitted rectangles are the raw,
pre-padding placements. -/
def squarifyRaw (sizes : List ℚ) (x y dx dy : ℚ) : List Rect :=
  squarifyWith Rect.mk sizes.length sizes x y dx dy

/-! ### Data shaping (`__transform_to_tree_data`) -/

/-- A fragment of the Python value universe large enough for the
inputs `treemap` handles: numbers, strings and (string-keyed)
dictionaries, the latter as association lists in iteration order. -/
inductive Py where
  | num (q : ℚ)
  | str (s : String)
  | dict (entries : List (String × Py))

/-- The inner loop of `__transform_to_tree_data` over one sub-mapping:
accumulates `val_sum` over every numeric value and records the first
key whose numeric value is strictly positive as `color`. -/
def innerScan : List (String × Py) → ℚ → Option String → ℚ × Option String
  | [], val_sum, color => (val_sum, color)
  | (item_key, item_val) :: rest, val_sum, color =>
    match item_val with
    | .num q =>
      innerScan rest (val_sum + q)
        (match color with
         | none => if 0 < q then some item_key else none
         | some c => some c)
    | _ => innerScan rest val_sum color

/-- The outer loop of `__transform_to_tree_data`: a key is retained
only when a color key was found and the accumulated sum is positive. -/
def transformGo : List (String × Py) → List ℚ × List String × List String
  | [] => ([], [], [])
  | (key, val) :: rest =>
    let p :=
      match val with
      | .dict inner => innerScan inner 0 none
      | _ => ((0 : ℚ), (none : Option String))
    let r := transformGo rest
    match p.2 with
    | some c => if 0 < p.1 then (p.1 :: r.1, key :: r.2.1, c :: r.2.2) else r
    | none => r

/-- `__transform_to_tree_data`: non-dictionary input yields three
empty lists. -/
def transform_to_tree_data : Py → List ℚ × List String × List String
  | .dict l => transformGo l
  | _ => ([], [], [])

/-! ### Rendering (`treemap`) -/

/-- The fields substituted into `__ELEMENT_TEMPLATE` for one
rectangle group of the output markup. -/
structure SvgElement where
  x : ℚ
  y : ℚ
  width : ℚ
  height : ℚ
  color : Option String
  border_color : String
  label_x : ℚ
  label_y : ℚ
  label : String
deriving Repr, DecidableEq

/-- The fields substituted into the outer `__TEMPLATE`: the document
size and the rectangle groups in order. -/
structure Svg where
  width : ℚ
  height : ℚ
  rects : List SvgElement
deriving Repr, DecidableEq

/-- Python exceptions the rendering loop of `treemap` can raise. -/
inductive RenderError where
  | zeroDivision
  | indexError
deriving Repr, DecidableEq

/-- Python string slicing `s[:n]` for an `int` bound `n`: a negative
bound counts from the end of the string, clamping at 0. -/
def pySlice (s : String) (n : Int) : String :=
  if 0 ≤ n then ⟨s.data.take n.toNat⟩
  else ⟨s.data.take (s.data.length - (-n).toNat)⟩

/-- The body of the rendering loop of `treemap` for one rectangle
`d` with its parallel label and color key: builds one
`__ELEMENT_TEMPLATE` instance.  When `len(label) * fontsize` is zero
the Python division `d.dx / label_size_in_px` raises
`ZeroDivisionError`. -/
def elementFor (d : Rect) (label : String) (color_key : String) (fontsize : ℚ)
    (border_color : String) (title_color : String → Option String) :
    Except RenderError SvgElement :=
  let label_size_in_px : ℚ := (label.length : ℚ) * fontsize
  if label_size_in_px = 0 then .error .zeroDivision
  else
    let label_x := d.x + 1
    let label_y := d.y + fontsize / 2 + 5
    let max_label_len : Int := Int.ceil (d.dx / label_size_in_px * (label.length : ℚ))
    let max_label_len := if d.dy ≤ fontsize then 0 else max_label_len
    .ok ⟨d.x, d.y, d.dx, d.dy, title_color color_key, border_color,
      label_x, label_y, pySlice label max_label_len⟩

/-- The rendering loop of `treemap` (`for i, d in enumerate(sizes)`),
with `i` the running index into the parallel label and color-key
lists; accessing past their end raises `IndexError` in Python. -/
def buildElements (fontsize : ℚ) (border_color : String)
    (title_color : String → Option String) (labels color_keys : List String) :
    Nat → List Rect → Except RenderError (List SvgElement)
  | _, [] => .ok []
  | i, d :: rest =>
    match labels.get? i, color_keys.get? i with
    | some lab, some ck =>
      match elementFor d lab ck fontsize border_color title_color with
      | .error e => .error e
      | .ok e =>
        match buildElements fontsize border_color title_color labels color_keys (i + 1) rest with
        | .error e2 => .error e2
        | .ok es => .ok (e :: es)
    | _, _ => .error .indexError

/-- The `treemap` filter.  The color table is passed already resolved:
the source line `if not title_color: title_color = _severity_class_colors`
falls back to a palette owned by a collaborator module outside this
one, and every result below is uniform in the table. -/
def treemap (data : Py) (width height fontsize : ℚ) (border_color : String)
    (title_color : String → Option String) : Except RenderError Svg :=
  let t := transform_to_tree_data data
  let sizes := squarify t.1 0 0 width height
  match buildElements fontsize border_color title_color t.2.1 t.2.2 0 sizes with
  | .ok elements => .ok ⟨width, height, elements⟩
  | .error e => .error e

/-! ### Definitions following the specification text, for comparison
with the code-level definitions above -/

/-- Taken from the spec words for the padding contract: a single axis
with position `p` and extent `e` is inset by 1 on each side when the
extent exceeds 2 and left unchanged otherwise. -/
def padAxis (p e : ℚ) : ℚ × ℚ :=
  if e > 2 then (p + 1, e - 2) else (p, e)

/-- The numeric value of a sub-mapping entry, when it is a number. -/
def numOf : Py → Option ℚ
  | .num q => some q
  | _ => none

/-- Sum of all numeric values of a sub-mapping (the quantity the code
accumulates as `val_sum`). -/
def numSum (inner : List (String × Py)) : ℚ :=
  (inner.filterMap fun p => numOf p.2).sum

/-- Taken from the spec words: the sum of only the strictly positive
numeric values of a sub-mapping (the weight the spec claims is
emitted). -/
def posNumSum (inner : List (String × Py)) : ℚ :=
  (inner.filterMap fun p => numOf p.2).filter (fun q => 0 < q) |>.sum

/-- The first sub-key whose numeric value is strictly positive. -/
def firstPosKey (inner : List (String × Py)) : Option String :=
  (inner.find? fun p =>
    match numOf p.2 with
    | some q => decide (0 < q)
    | none => false).map Prod.fst

/-- A declarative description of the shaping step: an outer entry is
kept exactly when its value is a sub-mapping with a positive-valued
sub-key and a positive total numeric sum, and it then contributes
(total numeric sum, outer key, first positive sub-key). -/
def shapeSpec : List (String × Py) → List ℚ × List String × List String
  | [] => ([], [], [])
  | (key, val) :: rest =>
    let r := shapeSpec rest
    match val with
    | .dict inner =>
      match firstPosKey inner with
      | some c =>
        if 0 < numSum inner then (numSum inner :: r.1, key :: r.2.1, c :: r.2.2)
        else r
      | none => r
    | _ => r

/-- Whether a `Py` value is a dictionary. -/
def Py.isDict : Py → Bool
  | .dict _ => true
  | _ => false

/-- Whether the input has the well-typed shape the spec's interface
section describes: a mapping from strings to mappings from strings to
numbers. -/
def wellTyped : Py → Bool
  | .dict l =>
    l.all fun p =>
      match p.2 with
      | .dict inner =>
        inner.all fun q =>
          match q.2 with
          | .num _ => true
          | _ => false
      | _ => false
  | _ => false

/-! ### Helper lemmas: bands -/

lemma layoutrowGo_eq_map (mk : ℚ → ℚ → ℚ → ℚ → Rect) (width x : ℚ) :
    ∀ (sizes : List ℚ) (y : ℚ),
      layoutrowGo mk width x y sizes
        = (layoutrowGo Rect.mk width x y sizes).map fun r => mk r.x r.y r.dx r.dy := by
  intro sizes
  induction sizes with
  | nil => intro y; rfl
  | cons s rest ih => intro y; simp [layoutrowGo, ih]

lemma layoutcolGo_eq_map (mk : ℚ → ℚ → ℚ → ℚ → Rect) (height y : ℚ) :
    ∀ (sizes : List ℚ) (x : ℚ),
      layoutcolGo mk height y x sizes
        = (layoutcolGo Rect.mk height y x sizes).map fun r => mk r.x r.y r.dx r.dy := by
  intro sizes
  induction sizes with
  | nil => intro x; rfl
  | cons s rest ih => intro x; simp [layoutcolGo, ih]

lemma layoutWith_eq_map (mk : ℚ → ℚ → ℚ → ℚ → Rect) (sizes : List ℚ) (x y dx dy : ℚ) :
    layoutWith mk sizes x y dx dy
      = (layoutWith Rect.mk sizes x y dx dy).map fun r => mk r.x r.y r.dx r.dy := by
  unfold layoutWith layoutrowWith layoutcolWith
  split
  · exact layoutrowGo_eq_map mk _ x sizes y
  · exact layoutcolGo_eq_map mk _ y sizes x

lemma layoutrowGo_raw_map_area (width x : ℚ) (hw : width ≠ 0) :
    ∀ (sizes : List ℚ) (y : ℚ),
      (layoutrowGo Rect.mk width x y sizes).map rectArea = sizes := by
  intro sizes
  induction sizes with
  | nil => intro y; rfl
  | cons s rest ih =>
    intro y
    simp [layoutrowGo, ih, rectArea]
    rw [mul_comm]
    exact div_mul_cancel₀ s hw

lemma layoutcolGo_raw_map_area (height y : ℚ) (hh : height ≠ 0) :
    ∀ (sizes : List ℚ) (x : ℚ),
      (layoutcolGo Rect.mk height y x sizes).map rectArea = sizes := by
  intro sizes
  induction sizes with
  | nil => intro x; rfl
  | cons s rest ih =>
    intro x
    simp [layoutcolGo, ih, rectArea]
    exact div_mul_cancel₀ s hh

lemma layoutWith_raw_map_area (sizes : List ℚ) (x y dx dy : ℚ)
    (hsum : 0 < sizes.sum) (hdx : 0 < dx) (hdy : 0 < dy) :
    (layoutWith Rect.mk sizes x y dx dy).map rectArea = sizes := by
  unfold layoutWith layoutrowWith layoutcolWith
  split
  · exact layoutrowGo_raw_map_area _ x (div_ne_zero hsum.ne' hdy.ne') sizes y
  · exact layoutcolGo_raw_map_area _ y (div_ne_zero hsum.ne' hdx.ne') sizes x

lemma sum_map_mulDiv (l : List ℚ) (a s : ℚ) :
    (l.map fun z => z * a / s).sum = l.sum * a / s := by
  induction l with
  | nil => simp
  | cons z rest ih => simp [ih, add_mul, add_div]

/-! ### Helper lemmas: the split search -/

lemma findSplitGo_bounds (sizes : List ℚ) (x y dx dy : ℚ) :
    ∀ (fuel i0 : Nat), i0 + fuel = sizes.length →
      min i0 (sizes.length - 1) ≤ findSplitGo sizes x y dx dy i0 fuel ∧
        findSplitGo sizes x y dx dy i0 fuel ≤ sizes.length - 1 := by
  intro fuel
  induction fuel with
  | zero =>
    intro i0 _
    exact ⟨min_le_right _ _, le_refl _⟩
  | succ fuel ih =>
    intro i0 hi
    rw [findSplitGo]
    split
    · exact ⟨min_le_left _ _, by omega⟩
    · have h := ih (i0 + 1) (by omega)
      exact ⟨le_trans (min_le_min (Nat.le_succ i0) (le_refl _)) h.1, h.2⟩

lemma findSplit_bounds (sizes : List ℚ) (x y dx dy : ℚ) (h2 : 2 ≤ sizes.length) :
    1 ≤ findSplit sizes x y dx dy ∧ findSplit sizes x y dx dy ≤ sizes.length - 1 := by
  have h := findSplitGo_bounds sizes x y dx dy (sizes.length - 1) 1 (by omega)
  have hmin : min 1 (sizes.length - 1) = 1 := by omega
  rw [findSplit]
  rw [hmin] at h
  exact h

/-! ### Helper lemmas: the recursion -/

lemma squarifyWith_eq_map (mk : ℚ → ℚ → ℚ → ℚ → Rect) :
    ∀ (fuel : Nat) (sizes : List ℚ) (x y dx dy : ℚ),
      squarifyWith mk fuel sizes x y dx dy
        = (squarifyWith Rect.mk fuel sizes x y dx dy).map fun r => mk r.x r.y r.dx r.dy := by
  intro fuel
  induction fuel with
  | zero => intro sizes x y dx dy; rfl
  | succ fuel ih =>
    intro sizes x y dx dy
    by_cases h0 : sizes.length = 0
    · simp [squarifyWith, h0]
    · by_cases h1 : sizes.length = 1
      · simp [squarifyWith, h0, h1, layoutWith_eq_map mk]
      · simp [squarifyWith, h0, h1, layoutWith_eq_map mk, ih]

lemma squarify_eq_map_padRect (sizes : List ℚ) (x y dx dy : ℚ) :
    squarify sizes x y dx dy = (squarifyRaw sizes x y dx dy).map padRect := by
  rw [squarify, squarifyRaw, squarifyWith_eq_map createRectangle]
  rfl

lemma leftover_extent (cur : List ℚ) (x y dx dy : ℚ)
    (hdx : 0 < dx) (hdy : 0 < dy) (hc : 0 < cur.sum) (hlt : cur.sum < dx * dy) :
    0 < (leftover cur x y dx dy).2.2.1 ∧ 0 < (leftover cur x y dx dy).2.2.2 ∧
      (leftover cur x y dx dy).2.2.1 * (leftover cur x y dx dy).2.2.2
        = dx * dy - cur.sum := by
  unfold leftover leftoverrow leftovercol
  split
  · refine ⟨?_, hdy, ?_⟩
    · have : cur.sum / dy < dx := (div_lt_iff hdy).mpr hlt
      simpa using sub_pos.mpr this
    · have : cur.sum / dy * dy = cur.sum := div_mul_cancel₀ _ hdy.ne'
      simp [sub_mul, this]
  · refine ⟨hdx, ?_, ?_⟩
    · have : cur.sum / dx < dy := by
        rw [div_lt_iff hdx]
        calc cur.sum < dx * dy := hlt
        _ = dy * dx := mul_comm dx dy
      simpa using sub_pos.mpr this
    · have : dx * (cur.sum / dx) = cur.sum := mul_div_cancel₀ _ hdx.ne'
      simp [mul_sub, this]

lemma squarifyWith_raw_map_area :
    ∀ (fuel : Nat) (sizes : List ℚ) (x y dx dy : ℚ),
      sizes.length ≤ fuel → (∀ s ∈ sizes, 0 < s) → 0 < dx → 0 < dy →
      (squarifyWith Rect.mk fuel sizes x y dx dy).map rectArea
        = sizes.map fun s => s * (dx * dy) / sizes.sum := by
  intro fuel
  induction fuel with
  | zero =>
    intro sizes x y dx dy hlen _ _ _
    have : sizes = [] := List.eq_nil_of_length_eq_zero (Nat.le_zero.mp hlen)
    subst this
    rfl
  | succ fuel ih =>
    intro sizes x y dx dy hlen hpos hdx hdy
    by_cases h0 : sizes.length = 0
    · have : sizes = [] := List.eq_nil_of_length_eq_zero h0
      subst this
      rfl
    · have hne : sizes ≠ [] := fun h => h0 (by simp [h])
      have hS : 0 < sizes.sum := List.sum_pos _ hpos hne
      have hA : 0 < dx * dy := mul_pos hdx hdy
      have hpos2 : ∀ z ∈ sizes.map (fun s => s * (dx * dy) / sizes.sum), 0 < z := by
        intro z hz
        obtain ⟨s, hs, rfl⟩ := List.mem_map.mp hz
        exact div_pos (mul_pos (hpos s hs) hA) hS
      have hsum2 : (sizes.map fun s => s * (dx * dy) / sizes.sum).sum = dx * dy := by
        rw [sum_map_mulDiv]
        field_simp
      by_cases h1 : sizes.length = 1
      · rw [squarifyWith]
        rw [if_neg h0]
        simp only [List.length_map]
        rw [if_pos h1]
        exact layoutWith_raw_map_area _ x y dx dy (by rw [hsum2]; exact hA) hdx hdy
      · rw [squarifyWith]
        rw [if_neg h0]
        simp only [List.length_map]
        rw [if_neg h1]
        have h2 : 2 ≤ sizes.length := by omega
        set sizes2 := sizes.map (fun s => s * (dx * dy) / sizes.sum) with hs2
        have hlen2 : sizes2.length = sizes.length := by simp [hs2]
        set i := findSplit sizes2 x y dx dy with hi
        have hib := findSplit_bounds sizes2 x y dx dy (by omega)
        rw [← hi] at hib
        set current := sizes2.take i with hcur
        set remaining := sizes2.drop i with hrem
        have hcur_len : current.length = i := by
          rw [hcur, List.length_take]
          omega
        have hrem_len : remaining.length = sizes.length - i := by
          rw [hrem, List.length_drop]
          omega
        have hcur_ne : current ≠ [] := by
          intro h
          have := congrArg List.length h
          rw [hcur_len] at this
          simp at this
          omega
        have hrem_ne : remaining ≠ [] := by
          intro h
          have := congrArg List.length h
          rw [hrem_len] at this
          simp at this
          omega
        have hcur_pos : ∀ z ∈ current, 0 < z := fun z hz =>
          hpos2 z (List.take_subset i sizes2 hz)
        have hrem_pos : ∀ z ∈ remaining, 0 < z := fun z hz =>
          hpos2 z (List.drop_subset i sizes2 hz)
        have hcur_sum : 0 < current.sum := List.sum_pos _ hcur_pos hcur_ne
        have hrem_sum : 0 < remaining.sum := List.sum_pos _ hrem_pos hrem_ne
        have hsplit_sum : current.sum + remaining.sum = dx * dy := by
          rw [hcur, hrem, List.sum_take_add_sum_drop, hsum2]
        have hcur_lt : current.sum < dx * dy := by linarith
        obtain ⟨hlo1, hlo2, hlo3⟩ :=
          leftover_extent current x y dx dy hdx hdy hcur_sum hcur_lt
        rw [List.map_append]
        rw [layoutWith_raw_map_area current x y dx dy hcur_sum hdx hdy]
        rw [ih remaining _ _ _ _ (by omega) hrem_pos hlo1 hlo2]
        have hrw : (fun s => s * ((leftover current x y dx dy).2.2.1 *
            (leftover current x y dx dy).2.2.2) / remaining.sum) = fun s : ℚ => s := by
          funext s
          rw [hlo3]
          have : dx * dy - current.sum = remaining.sum := by linarith
          rw [this, mul_div_assoc, div_self hrem_sum.ne', mul_one]
        rw [hrw, List.map_id', hcur, hrem, List.take_append_drop]

/-! ### Helper lemmas: containment -/

lemma layoutrowGo_raw_bounds (width x : ℚ) (hw : 0 < width) :
    ∀ (sizes : List ℚ) (y0 : ℚ), (∀ s ∈ sizes, 0 < s) →
      ∀ r ∈ layoutrowGo Rect.mk width x y0 sizes,
        r.x = x ∧ r.dx = width ∧ y0 ≤ r.y ∧ r.y + r.dy ≤ y0 + sizes.sum / width := by
  intro sizes
  induction sizes with
  | nil => intro y0 _ r hr; simp [layoutrowGo] at hr
  | cons s rest ih =>
    intro y0 hpos r hr
    have hs : 0 < s := hpos s (by simp)
    have hrest : ∀ z ∈ rest, 0 < z := fun z hz => hpos z (by simp [hz])
    have hrest_sum : 0 ≤ rest.sum := List.sum_nonneg fun z hz => (hrest z hz).le
    rw [layoutrowGo, List.mem_cons] at hr
    rcases hr with rfl | hr
    · refine ⟨rfl, rfl, le_refl _, ?_⟩
      simp only
      rw [List.sum_cons, add_div]
      have : 0 ≤ rest.sum / width := div_nonneg hrest_sum hw.le
      linarith
    · obtain ⟨h1, h2, h3, h4⟩ := ih (y0 + s / width) hrest r hr
      have hsw : 0 < s / width := div_pos hs hw
      refine ⟨h1, h2, by linarith, ?_⟩
      rw [List.sum_cons, add_div]
      linarith

lemma layoutcolGo_raw_bounds (height y : ℚ) (hh : 0 < height) :
    ∀ (sizes : List ℚ) (x0 : ℚ), (∀ s ∈ sizes, 0 < s) →
      ∀ r ∈ layoutcolGo Rect.mk height y x0 sizes,
        r.y = y ∧ r.dy = height ∧ x0 ≤ r.x ∧ r.x + r.dx ≤ x0 + sizes.sum / height := by
  intro sizes
  induction sizes with
  | nil => intro x0 _ r hr; simp [layoutcolGo] at hr
  | cons s rest ih =>
    intro x0 hpos r hr
    have hs : 0 < s := hpos s (by simp)
    have hrest : ∀ z ∈ rest, 0 < z := fun z hz => hpos z (by simp [hz])
    have hrest_sum : 0 ≤ rest.sum := List.sum_nonneg fun z hz => (hrest z hz).le
    rw [layoutcolGo, List.mem_cons] at hr
    rcases hr with rfl | hr
    · refine ⟨rfl, rfl, le_refl _, ?_⟩
      simp only
      rw [List.sum_cons, add_div]
      have : 0 ≤ rest.sum / height := div_nonneg hrest_sum hh.le
      linarith
    · obtain ⟨h1, h2, h3, h4⟩ := ih (x0 + s / height) hrest r hr
      have hsh : 0 < s / height := div_pos hs hh
      refine ⟨h1, h2, by linarith, ?_⟩
      rw [List.sum_cons, add_div]
      linarith

lemma div_self_div (B dy : ℚ) (hB : B ≠ 0) : B / (B / dy) = dy := by
  rw [div_div_eq_mul_div, mul_comm, mul_div_assoc, div_self hB, mul_one]

lemma layoutWith_raw_bounds (sizes : List ℚ) (x y dx dy : ℚ)
    (hpos : ∀ s ∈ sizes, 0 < s) (hdx : 0 < dx) (hdy : 0 < dy)
    (hsum_pos : 0 < sizes.sum) (hsum_le : sizes.sum ≤ dx * dy) :
    ∀ r ∈ layoutWith Rect.mk sizes x y dx dy,
      x ≤ r.x ∧ r.x + r.dx ≤ x + dx ∧ y ≤ r.y ∧ r.y + r.dy ≤ y + dy := by
  unfold layoutWith layoutrowWith layoutcolWith
  split
  · intro r hr
    have hw : 0 < sizes.sum / dy := div_pos hsum_pos hdy
    obtain ⟨h1, h2, h3, h4⟩ := layoutrowGo_raw_bounds _ x hw sizes y hpos r hr
    have hwd : sizes.sum / dy ≤ dx := (div_le_iff hdy).mpr hsum_le
    rw [div_self_div sizes.sum dy hsum_pos.ne'] at h4
    exact ⟨le_of_eq h1.symm, by rw [h1, h2]; linarith, h3, h4⟩
  · intro r hr
    have hh : 0 < sizes.sum / dx := div_pos hsum_pos hdx
    obtain ⟨h1, h2, h3, h4⟩ := layoutcolGo_raw_bounds _ y hh sizes x hpos r hr
    have hhd : sizes.sum / dx ≤ dy := by
      rw [div_le_iff hdx]
      calc sizes.sum ≤ dx * dy := hsum_le
      _ = dy * dx := mul_comm dx dy
    rw [div_self_div sizes.sum dx hsum_pos.ne'] at h4
    exact ⟨h3, h4, le_of_eq h1.symm, by rw [h1, h2]; linarith⟩

lemma leftover_region (cur : List ℚ) (x y dx dy : ℚ)
    (hc : 0 ≤ cur.sum) (hdx : 0 < dx) (hdy : 0 < dy) :
    x ≤ (leftover cur x y dx dy).1 ∧ y ≤ (leftover cur x y dx dy).2.1 ∧
      (leftover cur x y dx dy).1 + (leftover cur x y dx dy).2.2.1 = x + dx ∧
      (leftover cur x y dx dy).2.1 + (leftover cur x y dx dy).2.2.2 = y + dy := by
  unfold leftover leftoverrow leftovercol
  split
  · have : 0 ≤ cur.sum / dy := div_nonneg hc hdy.le
    exact ⟨by simpa using this, le_refl _, by ring, by ring⟩
  · have : 0 ≤ cur.sum / dx := div_nonneg hc hdx.le
    exact ⟨le_refl _, by simpa using this, by ring, by ring⟩

lemma squarifyWith_raw_bounds :
    ∀ (fuel : Nat) (sizes : List ℚ) (x y dx dy : ℚ),
      sizes.length ≤ fuel → (∀ s ∈ sizes, 0 < s) → 0 < dx → 0 < dy →
      ∀ r ∈ squarifyWith Rect.mk fuel sizes x y dx dy,
        x ≤ r.x ∧ r.x + r.dx ≤ x + dx ∧ y ≤ r.y ∧ r.y + r.dy ≤ y + dy := by
  intro fuel
  induction fuel with
  | zero => intro sizes x y dx dy _ _ _ _ r hr; simp [squarifyWith] at hr
  | succ fuel ih =>
    intro sizes x y dx dy hlen hpos hdx hdy
    by_cases h0 : sizes.length = 0
    · have : sizes = [] := List.eq_nil_of_length_eq_zero h0
      subst this
      intro r hr
      simp [squarifyWith] at hr
    · have hne : sizes ≠ [] := fun h => h0 (by simp [h])
      have hS : 0 < sizes.sum := List.sum_pos _ hpos hne
      have hA : 0 < dx * dy := mul_pos hdx hdy
      have hpos2 : ∀ z ∈ sizes.map (fun s => s * (dx * dy) / sizes.sum), 0 < z := by
        intro z hz
        obtain ⟨s, hs, rfl⟩ := List.mem_map.mp hz
        exact div_pos (mul_pos (hpos s hs) hA) hS
      have hsum2 : (sizes.map fun s => s * (dx * dy) / sizes.sum).sum = dx * dy := by
        rw [sum_map_mulDiv]
        field_simp
      by_cases h1 : sizes.length = 1
      · rw [squarifyWith, if_neg h0]
        simp only [List.length_map]
        rw [if_pos h1]
        exact layoutWith_raw_bounds _ x y dx dy hpos2 hdx hdy
          (by rw [hsum2]; exact hA) (le_of_eq hsum2)
      · rw [squarifyWith, if_neg h0]
        simp only [List.length_map]
        rw [if_neg h1]
        have h2 : 2 ≤ sizes.length := by omega
        set sizes2 := sizes.map (fun s => s * (dx * dy) / sizes.sum) with hs2
        have hlen2 : sizes2.length = sizes.length := by simp [hs2]
        set i := findSplit sizes2 x y dx dy with hi
        have hib := findSplit_bounds sizes2 x y dx dy (by omega)
        rw [← hi] at hib
        set current := sizes2.take i with hcur
        set remaining := sizes2.drop i with hrem
        have hcur_len : current.length = i := by
          rw [hcur, List.length_take]
          omega
        have hrem_len : remaining.length = sizes.length - i := by
          rw [hrem, List.length_drop]
          omega
        have hcur_ne : current ≠ [] := by
          intro h
          have := congrArg List.length h
          rw [hcur_len] at this
          simp at this
          omega
        have hrem_ne : remaining ≠ [] := by
          intro h
          have := congrArg List.length h
          rw [hrem_len] at this
          simp at this
          omega
        have hcur_pos : ∀ z ∈ current, 0 < z := fun z hz =>
          hpos2 z (List.take_subset i sizes2 hz)
        have hrem_pos : ∀ z ∈ remaining, 0 < z := fun z hz =>
          hpos2 z (List.drop_subset i sizes2 hz)
        have hcur_sum : 0 < current.sum := List.sum_pos _ hcur_pos hcur_ne
        have hrem_sum : 0 < remaining.sum := List.sum_pos _ hrem_pos hrem_ne
        have hsplit_sum : current.sum + remaining.sum = dx * dy := by
          rw [hcur, hrem, List.sum_take_add_sum_drop, hsum2]
        have hcur_lt : current.sum < dx * dy := by linarith
        obtain ⟨hlo1, hlo2, hlo3⟩ :=
          leftover_extent current x y dx dy hdx hdy hcur_sum hcur_lt
        obtain ⟨hr1, hr2, hr3, hr4⟩ :=
          leftover_region current x y dx dy hcur_sum.le hdx hdy
        intro r hr
        rw [List.mem_append] at hr
        rcases hr with hr | hr
        · exact layoutWith_raw_bounds current x y dx dy hcur_pos hdx hdy
            hcur_sum hcur_lt.le r hr
        · obtain ⟨g1, g2, g3, g4⟩ := ih remaining _ _ _ _ (by omega) hrem_pos
            hlo1 hlo2 r hr
          exact ⟨by linarith, by linarith, by linarith, by linarith⟩

lemma padRect_within (r : Rect) :
    r.x ≤ (padRect r).x ∧ (padRect r).x + (padRect r).dx ≤ r.x + r.dx ∧
      r.y ≤ (padRect r).y ∧ (padRect r).y + (padRect r).dy ≤ r.y + r.dy := by
  unfold padRect createRectangle
  split_ifs <;> refine ⟨?_, ?_, ?_, ?_⟩ <;> simp <;> linarith

/-! ### Helper lemmas: the split search, characterised -/

lemma findSplitGo_spec (sizes : List ℚ) (x y dx dy : ℚ) :
    ∀ (fuel i0 : Nat), i0 + fuel = sizes.length →
      (∀ k, i0 ≤ k → k < findSplitGo sizes x y dx dy i0 fuel →
        ¬ worst sizes x y dx dy k < worst sizes x y dx dy (k + 1)) ∧
      (worst sizes x y dx dy (findSplitGo sizes x y dx dy i0 fuel) <
          worst sizes x y dx dy (findSplitGo sizes x y dx dy i0 fuel + 1) ∨
        findSplitGo sizes x y dx dy i0 fuel = sizes.length - 1) := by
  intro fuel
  induction fuel with
  | zero =>
    intro i0 hi
    rw [findSplitGo]
    exact ⟨fun k hk1 hk2 => absurd (lt_of_le_of_lt hk1 hk2) (by omega), Or.inr rfl⟩
  | succ fuel ih =>
    intro i0 hi
    rw [findSplitGo]
    split
    · rename_i h
      exact ⟨fun k hk1 hk2 => absurd (lt_of_le_of_lt hk1 hk2) (by omega), Or.inl h⟩
    · rename_i h
      obtain ⟨ih1, ih2⟩ := ih (i0 + 1) (by omega)
      refine ⟨fun k hk1 hk2 => ?_, ih2⟩
      rcases Nat.eq_or_lt_of_le hk1 with rfl | hk1'
      · exact h
      · exact ih1 k hk1' hk2

/-! ### Helper lemmas: data shaping -/

lemma transformGo_lengths (l : List (String × Py)) :
    (transformGo l).1.length = (transformGo l).2.1.length ∧
      (transformGo l).1.length = (transformGo l).2.2.length := by
  induction l with
  | nil => exact ⟨rfl, rfl⟩
  | cons kv rest ih =>
    obtain ⟨k, v⟩ := kv
    cases v with
    | num q => simpa [transformGo] using ih
    | str s => simpa [transformGo] using ih
    | dict inner =>
      rcases hp : (innerScan inner 0 none).2 with _ | c
      · simpa [transformGo, hp] using ih
      · by_cases hq : (0:ℚ) < (innerScan inner 0 none).1
        · simpa [transformGo, hp, hq] using ih
        · simpa [transformGo, hp, hq] using ih

lemma transform_lengths (data : Py) :
    (transform_to_tree_data data).1.length = (transform_to_tree_data data).2.1.length ∧
      (transform_to_tree_data data).1.length = (transform_to_tree_data data).2.2.length := by
  cases data with
  | dict l => exact transformGo_lengths l
  | num q => exact ⟨rfl, rfl⟩
  | str s => exact ⟨rfl, rfl⟩

lemma transformGo_pos (l : List (String × Py)) :
    ∀ v ∈ (transformGo l).1, 0 < v := by
  induction l with
  | nil => intro v hv; simp [transformGo] at hv
  | cons kv rest ih =>
    obtain ⟨k, v0⟩ := kv
    intro v hv
    cases v0 with
    | num q => exact ih v (by simpa [transformGo] using hv)
    | str s => exact ih v (by simpa [transformGo] using hv)
    | dict inner =>
      rcases hp : (innerScan inner 0 none).2 with _ | c
      · exact ih v (by simpa [transformGo, hp] using hv)
      · by_cases hq : (0:ℚ) < (innerScan inner 0 none).1
        · simp only [transformGo, hp] at hv
          rw [if_pos hq] at hv
          rw [List.mem_cons] at hv
          rcases hv with rfl | hv
          · exact hq
          · exact ih v hv
        · simp only [transformGo, hp] at hv
          rw [if_neg hq] at hv
          exact ih v hv

lemma transform_pos (data : Py) : ∀ v ∈ (transform_to_tree_data data).1, 0 < v := by
  cases data with
  | dict l => exact transformGo_pos l
  | num q => intro v hv; simp [transform_to_tree_data] at hv
  | str s => intro v hv; simp [transform_to_tree_data] at hv

/-! ### Helper lemmas: rendering -/

lemma string_length_pos (s : String) (h : s ≠ "") : 0 < s.length := by
  cases s with
  | mk l =>
    cases l with
    | nil => exact absurd rfl h
    | cons c cs => simp [String.length]

lemma elementFor_ok (d : Rect) (lab ck : String) (fs : ℚ) (bc : String)
    (tc : String → Option String) (e : SvgElement)
    (hok : elementFor d lab ck fs bc tc = .ok e) :
    e.height = d.dy ∧ (d.dy ≤ fs → e.label = "") := by
  rw [elementFor] at hok
  split at hok
  · cases hok
  · cases hok
    refine ⟨rfl, fun hle => ?_⟩
    simp only [if_pos hle]
    rfl

lemma elementFor_total (d : Rect) (lab ck : String) (fs : ℚ) (bc : String)
    (tc : String → Option String) (hlab : lab ≠ "") (hfs : 0 < fs) :
    ∃ e, elementFor d lab ck fs bc tc = .ok e := by
  have hlen : 0 < lab.length := string_length_pos lab hlab
  have hne : (lab.length : ℚ) * fs ≠ 0 :=
    mul_ne_zero (Nat.cast_ne_zero.mpr hlen.ne') hfs.ne'
  rw [elementFor]
  rw [if_neg hne]
  exact ⟨_, rfl⟩

lemma buildElements_label (fs : ℚ) (bc : String) (tc : String → Option String)
    (labels cks : List String) :
    ∀ (rects : List Rect) (i : Nat) (es : List SvgElement),
      buildElements fs bc tc labels cks i rects = .ok es →
      ∀ e ∈ es, e.height ≤ fs → e.label = "" := by
  intro rects
  induction rects with
  | nil =>
    intro i es h e he
    rw [buildElements] at h
    cases h
    simp at he
  | cons d rest ih =>
    intro i es h e he hle
    rw [buildElements] at h
    split at h
    · rename_i lab ck _ _
      split at h
      · cases h
      · rename_i e0 helem
        split at h
        · cases h
        · rename_i es0 hrec
          cases h
          rw [List.mem_cons] at he
          rcases he with rfl | he
          · obtain ⟨hh, hl⟩ := elementFor_ok d lab ck fs bc tc e helem
            exact hl (hh ▸ hle)
          · exact ih (i + 1) es0 hrec e he hle
    · cases h

lemma buildElements_total (fs : ℚ) (bc : String) (tc : String → Option String)
    (labels cks : List String) (hlen : labels.length = cks.length)
    (hlab : ∀ lab ∈ labels, lab ≠ "") (hfs : 0 < fs) :
    ∀ (rects : List Rect) (i : Nat), i + rects.length ≤ labels.length →
      ∃ es, buildElements fs bc tc labels cks i rects = .ok es := by
  intro rects
  induction rects with
  | nil => intro i _; exact ⟨[], rfl⟩
  | cons d rest ih =>
    intro i hi
    have hi1 : i < labels.length := by simp at hi; omega
    have hi2 : i < cks.length := by omega
    have hget1 : labels.get? i = some (labels.get ⟨i, hi1⟩) := List.get?_eq_get hi1
    have hget2 : cks.get? i = some (cks.get ⟨i, hi2⟩) := List.get?_eq_get hi2
    obtain ⟨e, helem⟩ := elementFor_total d (labels.get ⟨i, hi1⟩) (cks.get ⟨i, hi2⟩)
      fs bc tc (hlab _ (labels.get_mem i hi1)) hfs
    obtain ⟨es0, hrec⟩ := ih (i + 1) (by simp at hi ⊢; omega)
    refine ⟨e :: es0, ?_⟩
    rw [buildElements, hget1, hget2]
    simp only [helem, hrec]

lemma squarify_length (sizes : List ℚ) (x y dx dy : ℚ)
    (hpos : ∀ s ∈ sizes, 0 < s) (hdx : 0 < dx) (hdy : 0 < dy) :
    (squarify sizes x y dx dy).length = sizes.length := by
  rw [squarify_eq_map_padRect, List.length_map, squarifyRaw]
  have h := squarifyWith_raw_map_area sizes.length sizes x y dx dy (le_refl _) hpos hdx hdy
  have := congrArg List.length h
  simpa using this

/-! ### Helper lemmas: the inner scan, characterised -/

lemma numSum_cons_num (ik : String) (q : ℚ) (rest : List (String × Py)) :
    numSum ((ik, Py.num q) :: rest) = q + numSum rest := by
  simp [numSum, numOf, List.filterMap_cons]

lemma numSum_cons_other (ik : String) (v : Py) (rest : List (String × Py))
    (h : numOf v = none) : numSum ((ik, v) :: rest) = numSum rest := by
  simp [numSum, List.filterMap_cons, h]

lemma firstPosKey_cons_pos (ik : String) (q : ℚ) (rest : List (String × Py))
    (hq : 0 < q) : firstPosKey ((ik, Py.num q) :: rest) = some ik := by
  rw [firstPosKey, List.find?_cons_of_pos _ (by simp [numOf, hq])]
  rfl

lemma firstPosKey_cons_nonpos (ik : String) (q : ℚ) (rest : List (String × Py))
    (hq : ¬ 0 < q) : firstPosKey ((ik, Py.num q) :: rest) = firstPosKey rest := by
  rw [firstPosKey, List.find?_cons_of_neg _ (by simp [numOf, hq]), firstPosKey]

lemma firstPosKey_cons_other (ik : String) (v : Py) (rest : List (String × Py))
    (h : numOf v = none) : firstPosKey ((ik, v) :: rest) = firstPosKey rest := by
  rw [firstPosKey, List.find?_cons_of_neg _ (by simp [h]), firstPosKey]

lemma innerScan_eq :
    ∀ (inner : List (String × Py)) (s : ℚ) (c : Option String),
      innerScan inner s c =
        (s + numSum inner,
          match c with
          | some c0 => some c0
          | none => firstPosKey inner) := by
  intro inner
  induction inner with
  | nil =>
    intro s c
    cases c <;> simp [innerScan, numSum, firstPosKey]
  | cons kv rest ih =>
    obtain ⟨ik, iv⟩ := kv
    intro s c
    cases iv with
    | num q =>
      cases c with
      | some c0 =>
        rw [innerScan, ih, numSum_cons_num]
        exact congrArg (fun z => (z, some c0)) (by ring)
      | none =>
        by_cases hq : (0 : ℚ) < q
        · rw [innerScan, if_pos hq, ih, numSum_cons_num, firstPosKey_cons_pos ik q rest hq]
          exact congrArg (fun z => (z, some ik)) (by ring)
        · rw [innerScan, if_neg hq, ih, numSum_cons_num,
            firstPosKey_cons_nonpos ik q rest hq]
          exact congrArg (fun z => (z, firstPosKey rest)) (by ring)
    | str sv =>
      cases c with
      | some c0 =>
        rw [innerScan, ih, numSum_cons_other ik (Py.str sv) rest rfl]
        all_goals exact fun q h => nomatch h
      | none =>
        rw [innerScan, ih, numSum_cons_other ik (Py.str sv) rest rfl,
          firstPosKey_cons_other ik (Py.str sv) rest rfl]
        all_goals exact fun q h => nomatch h
    | dict dv =>
      cases c with
      | some c0 =>
        rw [innerScan, ih, numSum_cons_other ik (Py.dict dv) rest rfl]
        all_goals exact fun q h => nomatch h
      | none =>
        rw [innerScan, ih, numSum_cons_other ik (Py.dict dv) rest rfl,
          firstPosKey_cons_other ik (Py.dict dv) rest rfl]
        all_goals exact fun q h => nomatch h

lemma transformGo_eq_shapeSpec : ∀ (l : List (String × Py)), transformGo l = shapeSpec l := by
  intro l
  induction l with
  | nil => rfl
  | cons kv rest ih =>
    obtain ⟨k, v⟩ := kv
    cases v with
    | num q => simp [transformGo, shapeSpec, ih]
    | str s => simp [transformGo, shapeSpec, ih]
    | dict inner =>
      have hscan := innerScan_eq inner 0 none
      simp only [zero_add] at hscan
      rcases hfp : firstPosKey inner with _ | c
      · rw [transformGo]
        simp only [hscan, hfp]
        rw [shapeSpec]
        simp only [hfp]
        exact ih
      · rw [transformGo]
        simp only [hscan, hfp]
        rw [shapeSpec]
        simp only [hfp]
        by_cases hq : (0 : ℚ) < numSum inner
        · rw [if_pos hq, if_pos hq, ih]
        · rw [if_neg hq, if_neg hq, ih]

/-! ### The claims -/

/-- Claim C1: for every non-empty sequence of strictly positive weights
and every strictly positive canvas, the sum of the pre-padding
(unpadded) areas of the rectangles returned by the layout engine equals
`width * height` (exactly, over `ℚ`, hence within any floating-point
tolerance); the rectangles actually returned are the per-rectangle
padding of those unpadded placements. -/
theorem C1_area_conservation (sizes : List ℚ) (x y dx dy : ℚ)
    (hne : sizes ≠ []) (hpos : ∀ s ∈ sizes, 0 < s) (hdx : 0 < dx) (hdy : 0 < dy) :
    ((squarifyRaw sizes x y dx dy).map rectArea).sum = dx * dy ∧
      squarify sizes x y dx dy = (squarifyRaw sizes x y dx dy).map padRect := by
  refine ⟨?_, squarify_eq_map_padRect sizes x y dx dy⟩
  rw [squarifyRaw,
    squarifyWith_raw_map_area sizes.length sizes x y dx dy (le_refl _) hpos hdx hdy,
    sum_map_mulDiv]
  have hS : 0 < sizes.sum := List.sum_pos _ hpos hne
  rw [mul_comm, mul_div_assoc, div_self hS.ne', mul_one]

/-- Witness for C1 at the reference input `[5, 1]` on a 90 by 50 canvas. -/
theorem C1_witness :
    ((squarifyRaw [5, 1] 0 0 90 50).map rectArea).sum = 90 * 50 ∧
      squarify [5, 1] 0 0 90 50 = (squarifyRaw [5, 1] 0 0 90 50).map padRect :=
  C1_area_conservation [5, 1] 0 0 90 50 (by simp) (by norm_num) (by norm_num) (by norm_num)

/-- Claim C2: the layout engine returns exactly one rectangle per input
weight, in input order: the result has the length of the weight list,
is the padding of the raw placements, and the i-th raw placement has
exactly the area the i-th weight was rescaled to
(`weight * width * height / total`), so the i-th rectangle is the one
laid out from the i-th weight. -/
theorem C2_order_preservation (sizes : List ℚ) (x y dx dy : ℚ)
    (hpos : ∀ s ∈ sizes, 0 < s) (hdx : 0 < dx) (hdy : 0 < dy) :
    (squarify sizes x y dx dy).length = sizes.length ∧
      squarify sizes x y dx dy = (squarifyRaw sizes x y dx dy).map padRect ∧
      (squarifyRaw sizes x y dx dy).map rectArea
        = sizes.map fun s => s * (dx * dy) / sizes.sum := by
  refine ⟨squarify_length sizes x y dx dy hpos hdx hdy,
    squarify_eq_map_padRect sizes x y dx dy, ?_⟩
  rw [squarifyRaw]
  exact squarifyWith_raw_map_area sizes.length sizes x y dx dy (le_refl _) hpos hdx hdy

/-- Witness for C2 at the reference input `[5, 1]` on a 90 by 50 canvas. -/
theorem C2_witness :
    (squarify [5, 1] 0 0 90 50).length = ([5, 1] : List ℚ).length ∧
      squarify [5, 1] 0 0 90 50 = (squarifyRaw [5, 1] 0 0 90 50).map padRect ∧
      (squarifyRaw [5, 1] 0 0 90 50).map rectArea
        = ([5, 1] : List ℚ).map fun s => s * (90 * 50) / ([5, 1] : List ℚ).sum :=
  C2_order_preservation [5, 1] 0 0 90 50 (by norm_num) (by norm_num) (by norm_num)

/-- Claim C3: for at least two strictly positive rescaled weights on a
strictly positive canvas, the split index is at least 1, at most
`length - 1`, every smaller candidate fails the improvement test
`worst(k) < worst(k + 1)`, and either the chosen index passes it or it
is `length - 1` (the fall-through of the loop). -/
theorem C3_split_search (sizes : List ℚ) (x y dx dy : ℚ)
    (h2 : 2 ≤ sizes.length) (hpos : ∀ s ∈ sizes, 0 < s)
    (hdx : 0 < dx) (hdy : 0 < dy) :
    1 ≤ findSplit sizes x y dx dy ∧
      findSplit sizes x y dx dy ≤ sizes.length - 1 ∧
      (∀ k, 1 ≤ k → k < findSplit sizes x y dx dy →
        ¬ worst sizes x y dx dy k < worst sizes x y dx dy (k + 1)) ∧
      (worst sizes x y dx dy (findSplit sizes x y dx dy) <
          worst sizes x y dx dy (findSplit sizes x y dx dy + 1) ∨
        findSplit sizes x y dx dy = sizes.length - 1) := by
  obtain ⟨hb1, hb2⟩ := findSplit_bounds sizes x y dx dy h2
  obtain ⟨hs1, hs2⟩ := findSplitGo_spec sizes x y dx dy (sizes.length - 1) 1 (by omega)
  rw [findSplit]
  exact ⟨hb1, hb2, hs1, hs2⟩

/-- Witness for C3 at the rescaled weights of `[5, 1]` on a 90 by 50
canvas, where the split index is 1. -/
theorem C3_witness :
    1 ≤ findSplit [3750, 750] 0 0 90 50 ∧
      findSplit [3750, 750] 0 0 90 50 ≤ ([3750, 750] : List ℚ).length - 1 ∧
      (∀ k, 1 ≤ k → k < findSplit [3750, 750] 0 0 90 50 →
        ¬ worst [3750, 750] 0 0 90 50 k < worst [3750, 750] 0 0 90 50 (k + 1)) ∧
      (worst [3750, 750] 0 0 90 50 (findSplit [3750, 750] 0 0 90 50) <
          worst [3750, 750] 0 0 90 50 (findSplit [3750, 750] 0 0 90 50 + 1) ∨
        findSplit [3750, 750] 0 0 90 50 = ([3750, 750] : List ℚ).length - 1) :=
  C3_split_search [3750, 750] 0 0 90 50 (by simp) (by norm_num) (by norm_num) (by norm_num)

/-- Claim C4: `__squarify([5, 1], 0, 0, 90, 50)` returns, after the
1-unit padding applied by `__create_rectangle`, exactly the two
rectangles `(1, 1, 73, 48)` and `(76, 1, 13, 48)`. -/
theorem C4_reference_layout :
    squarify [5, 1] 0 0 90 50 = [⟨1, 1, 73, 48⟩, ⟨76, 1, 13, 48⟩] := by
  norm_num [squarify, squarifyWith, findSplit, findSplitGo, worst, pyMax, aspect,
    layout, layoutWith, layoutrowWith, layoutrowGo, layoutcolWith, layoutcolGo,
    createRectangle, leftover, leftoverrow, leftovercol]

/-- Counterexample to C5 as stated: for the sub-mapping
`{a: 5, b: -2}` the code emits the weight 3 (the sum of all numeric
values, the negative one included), not 5 (the sum of only the
strictly positive values, which the claim asserts). -/
theorem C5_counterexample :
    transform_to_tree_data
        (.dict [("h", .dict [("a", .num 5), ("b", .num (-2))])])
      = ([3], ["h"], ["a"]) ∧
      posNumSum [("a", Py.num 5), ("b", Py.num (-2))] = 5 ∧
      (3 : ℚ) ≠ posNumSum [("a", Py.num 5), ("b", Py.num (-2))] := by
  norm_num [transform_to_tree_data, transformGo, innerScan, posNumSum, numOf,
    List.filterMap_cons]

/-- Claim C5, amended: for every mapping input, the shaping step keeps
exactly the outer keys whose sub-mapping has a strictly positive-valued
sub-key and a strictly positive total numeric sum, and for every
retained key the emitted weight is the sum of all numeric values of the
sub-mapping (zero entries contribute nothing, but negative entries do
reduce the weight), the label is the outer key, and the color key is
the first sub-key with a strictly positive numeric value. -/
theorem C5_amended (l : List (String × Py)) :
    transform_to_tree_data (.dict l) = shapeSpec l :=
  transformGo_eq_shapeSpec l

/-- Claim C6: the padding transform acts on each axis independently
(the x axis result depends only on x and the width, the y axis result
only on y and the height), shifting the origin by 1 and shrinking the
extent by 2 when the extent exceeds 2 and leaving the axis unchanged
when the extent is at most 2. -/
theorem C6_padding (x y dx dy : ℚ) :
    createRectangle x y dx dy =
      ⟨(padAxis x dx).1, (padAxis y dy).1, (padAxis x dx).2, (padAxis y dy).2⟩ ∧
      (2 < dx → padAxis x dx = (x + 1, dx - 2)) ∧
      (dx ≤ 2 → padAxis x dx = (x, dx)) ∧
      (2 < dy → padAxis y dy = (y + 1, dy - 2)) ∧
      (dy ≤ 2 → padAxis y dy = (y, dy)) := by
  refine ⟨rfl, fun h => ?_, fun h => ?_, fun h => ?_, fun h => ?_⟩
  · rw [padAxis, if_pos h]
  · rw [padAxis, if_neg (not_lt.mpr h)]
  · rw [padAxis, if_pos h]
  · rw [padAxis, if_neg (not_lt.mpr h)]

/-- Witness for C6 on a rectangle that is wide enough to pad on x but
too low to pad on y. -/
theorem C6_witness :
    createRectangle 0 0 5 1 =
      ⟨(padAxis 0 5).1, (padAxis 0 1).1, (padAxis 0 5).2, (padAxis 0 1).2⟩ ∧
      padAxis (0 : ℚ) 5 = (0 + 1, 5 - 2) ∧ padAxis (0 : ℚ) 1 = (0, 1) :=
  ⟨(C6_padding 0 0 5 1).1, (C6_padding 0 0 5 1).2.1 (by norm_num),
    (C6_padding 0 0 5 1).2.2.2.2 (by norm_num)⟩

/-- Claim C7: in any markup document the `treemap` operation actually
returns, every rectangle group whose (padded) height is at most the
font size carries an empty text label, whatever label text was
assigned to it. -/
theorem C7_label_suppression (data : Py) (w h fs : ℚ) (bc : String)
    (tc : String → Option String) (doc : Svg)
    (hok : treemap data w h fs bc tc = .ok doc) :
    ∀ e ∈ doc.rects, e.height ≤ fs → e.label = "" := by
  rw [treemap] at hok
  split at hok
  · rename_i es hes
    cases hok
    exact buildElements_label fs bc tc _ _ _ 0 es hes
  · cases hok

/-- Witness for C7: a one-item input whose rectangle is 3 high with
font size 11 renders with an empty label. -/
theorem C7_witness : (⟨1, 1, 8, 3, none, "#ffffff", 2, 23/2, ""⟩ : SvgElement).label = "" :=
  C7_label_suppression (.dict [("h", .dict [("high", .num 1)])]) 10 5 11 "#ffffff"
    (fun _ => none) ⟨10, 5, [⟨1, 1, 8, 3, none, "#ffffff", 2, 23/2, ""⟩]⟩
    (by norm_num [treemap, transform_to_tree_data, transformGo, innerScan, squarify,
      squarifyWith, layout, layoutWith, layoutrowWith, layoutrowGo, layoutcolWith,
      layoutcolGo, createRectangle, buildElements, elementFor, pySlice, String.length])
    _ (by simp) (by norm_num)

/-- Claim C8: for every non-mapping input and for the empty mapping,
the shaping step returns three empty sequences and `treemap` returns a
document of the requested width and height with no rectangle groups,
raising no error. -/
theorem C8_degenerate_input (data : Py) (w h fs : ℚ) (bc : String)
    (tc : String → Option String) (hdeg : data.isDict = false ∨ data = .dict []) :
    transform_to_tree_data data = ([], [], []) ∧
      treemap data w h fs bc tc = .ok ⟨w, h, []⟩ := by
  have htr : transform_to_tree_data data = ([], [], []) := by
    rcases hdeg with hnd | rfl
    · cases data with
      | dict l => simp [Py.isDict] at hnd
      | num q => rfl
      | str s => rfl
    · rfl
  refine ⟨htr, ?_⟩
  rw [treemap, htr]
  rfl

/-- Witness for C8 at the non-mapping input `12`. -/
theorem C8_witness :
    transform_to_tree_data (.num 12) = ([], [], []) ∧
      treemap (.num 12) 7 9 11 "#ffffff" (fun _ => none) = .ok ⟨7, 9, []⟩ :=
  C8_degenerate_input (.num 12) 7 9 11 "#ffffff" (fun _ => none) (Or.inl rfl)

/-- Counterexample to C9 as stated: the well-typed input whose only
outer key is the empty string, on a strictly positive canvas and font
size, makes the rendering step raise `ZeroDivisionError` (the label
length is 0, so `label_size_in_px` is 0 and `d.dx / label_size_in_px`
divides by zero) instead of returning markup. -/
theorem C9_counterexample :
    wellTyped (.dict [("", .dict [("high", .num 1)])]) = true ∧
      (0 : ℚ) < 10 ∧ (0 : ℚ) < 10 ∧ (0 : ℚ) < 11 ∧
      treemap (.dict [("", .dict [("high", .num 1)])]) 10 10 11 "#ffffff"
          (fun _ => none)
        = .error .zeroDivision := by
  refine ⟨rfl, by norm_num, by norm_num, by norm_num, ?_⟩
  norm_num [treemap, transform_to_tree_data, transformGo, innerScan, squarify,
    squarifyWith, layout, layoutWith, layoutrowWith, layoutrowGo, layoutcolWith,
    layoutcolGo, createRectangle, buildElements, elementFor, String.length]

/-- Claim C9, amended: `treemap` is total (returns a markup document,
raising no error, in particular no division by zero in the rendering
step) over well-typed inputs with strictly positive width, height and
font size, provided every retained label is a non-empty string; the
empty-string label is exactly the case the counterexample excludes. -/
theorem C9_amended (data : Py) (w h fs : ℚ) (bc : String)
    (tc : String → Option String) (hwt : wellTyped data = true)
    (hlab : ∀ lab ∈ (transform_to_tree_data data).2.1, lab ≠ "")
    (hw : 0 < w) (hh : 0 < h) (hfs : 0 < fs) :
    ∃ doc, treemap data w h fs bc tc = .ok doc := by
  obtain ⟨hl1, hl2⟩ := transform_lengths data
  have hpos := transform_pos data
  have hsq := squarify_length (transform_to_tree_data data).1 0 0 w h hpos hw hh
  have hlen : (transform_to_tree_data data).2.1.length
      = (transform_to_tree_data data).2.2.length := by omega
  obtain ⟨es, hes⟩ := buildElements_total fs bc tc _ _ hlen hlab hfs
    (squarify (transform_to_tree_data data).1 0 0 w h) 0 (by omega)
  refine ⟨⟨w, h, es⟩, ?_⟩
  rw [treemap]
  simp only [hes]

/-- Witness for C9 (amended) at a one-item well-typed input with a
non-empty label. -/
theorem C9_witness :
    ∃ doc, treemap (.dict [("a", .dict [("x", .num 1)])]) 4 3 2 "#ffffff"
      (fun _ => none) = .ok doc :=
  C9_amended (.dict [("a", .dict [("x", .num 1)])]) 4 3 2 "#ffffff" (fun _ => none)
    rfl
    (by
      norm_num [transform_to_tree_data, transformGo, innerScan]
      decide)
    (by norm_num) (by norm_num) (by norm_num)

/-- Claim C10: every rectangle returned by the layout engine for
strictly positive weights lies inside the target canvas (exactly, over
`ℚ`). -/
theorem C10_containment (sizes : List ℚ) (x y dx dy : ℚ)
    (hne : sizes ≠ []) (hpos : ∀ s ∈ sizes, 0 < s) (hdx : 0 < dx) (hdy : 0 < dy) :
    ∀ r ∈ squarify sizes x y dx dy,
      x ≤ r.x ∧ r.x + r.dx ≤ x + dx ∧ y ≤ r.y ∧ r.y + r.dy ≤ y + dy := by
  intro r hr
  rw [squarify_eq_map_padRect] at hr
  obtain ⟨r0, hr0, rfl⟩ := List.mem_map.mp hr
  rw [squarifyRaw] at hr0
  obtain ⟨b1, b2, b3, b4⟩ :=
    squarifyWith_raw_bounds sizes.length sizes x y dx dy (le_refl _) hpos hdx hdy r0 hr0
  obtain ⟨p1, p2, p3, p4⟩ := padRect_within r0
  exact ⟨by linarith, by linarith, by linarith, by linarith⟩

/-- Witness for C10 at the reference input `[5, 1]` on a 90 by 50
canvas, checking the first returned rectangle. -/
theorem C10_witness :
    (0 : ℚ) ≤ (⟨1, 1, 73, 48⟩ : Rect).x ∧
      (⟨1, 1, 73, 48⟩ : Rect).x + (⟨1, 1, 73, 48⟩ : Rect).dx ≤ 0 + 90 ∧
      (0 : ℚ) ≤ (⟨1, 1, 73, 48⟩ : Rect).y ∧
      (⟨1, 1, 73, 48⟩ : Rect).y + (⟨1, 1, 73, 48⟩ : Rect).dy ≤ 0 + 50 :=
  C10_containment [5, 1] 0 0 90 50 (by simp) (by norm_num) (by norm_num) (by norm_num)
    ⟨1, 1, 73, 48⟩
    (by norm_num [squarify, squarifyWith, findSplit, findSplitGo, worst, pyMax, aspect,
      layout, layoutWith, layoutrowWith, layoutrowGo, layoutcolWith, layoutcolGo,
      createRectangle, leftover, leftoverrow, leftovercol])

end PhemeTreemap
